import Mathlib

/-!
# CPU tracker leader: shallow embedding and verification

Shallow embedding of `src/main.py` (peer enumeration, staleness filtering,
network CPU-mean aggregation, rolling-history persistence) and proofs of the
spec's claims about it.

Modelling conventions:
* Python `float` values (cpu readings, aggregated sums, the mean) are modelled
  as exact rationals `ℚ`.
* Wall-clock instants are modelled as rationals (seconds); `datetime.strptime`
  is modelled as an abstract partial parse function `String → Option ℚ`
  (`none` = `ValueError`), since the claims never depend on the concrete
  calendar arithmetic, only on parse success/failure and the numeric
  difference `now - timestamp`.
* Filesystem state is passed explicitly: the per-peer tracker file as a
  `TrackerFile` per peer name, the history file as a `HistFile`.
* Python exceptions that escape a function are modelled as `Except.error`;
  silently-caught conditions are ordinary control flow, exactly as in the
  source.
-/

/-- The observable states of a peer's `cpu_tracker.json` file, as
`get_network_cpu_mean` distinguishes them: absent (`tracker_file.exists()`
false), present but undecodable JSON (`json.JSONDecodeError`), or decoded. -/
inductive PeerData : Type where
  | mk (timestamp : Option String) (cpu : Option ℚ)
  deriving DecidableEq, Repr

/-- The `"timestamp"` field of the decoded JSON object, `none` when the key is
absent (the `"timestamp" in peer_data` test fails). -/
def PeerData.timestamp : PeerData → Option String
  | .mk t _ => t

/-- The `"cpu"` field after `float(...)` coercion: `none` when the key is
absent (`KeyError`) or the value is not coercible to float (`ValueError`). -/
def PeerData.cpu : PeerData → Option ℚ
  | .mk _ c => c

/-- State of one peer's tracker file on disk. -/
inductive TrackerFile : Type where
  | absent
  | invalidJson
  | valid (data : PeerData)
  deriving DecidableEq, Repr

/-- Exceptions that escape `get_network_cpu_mean`: `ValueError` raised by
`datetime.strptime` inside `is_updated`, and the `KeyError`/`ValueError`
raised by `float(peer_data["cpu"])`. Neither is caught in the source. -/
inductive AggError : Type where
  | timestampParseError
  | cpuFieldError
  deriving DecidableEq, Repr

/-- Embedding of `is_updated` (src/main.py:42-66): parse the timestamp string
(raising on failure, modelled as `Except.error`), then return whether
`current_time - data_timestamp < timedelta(minutes=1)`, i.e. strictly less
than 60 seconds. -/
def is_updated (parse : String → Option ℚ) (now : ℚ) (timestamp : String) :
    Except AggError Bool :=
  match parse timestamp with
  | none => Except.error AggError.timestampParseError
  | some t => Except.ok (decide (now - t < 60))

/-- The per-peer loop body of `get_network_cpu_mean` (src/main.py:97-119),
carried accumulators `aggregated_usage`, `aggregated_peers`, `active_peers`. -/
def aggLoop (parse : String → Option ℚ) (now : ℚ) (fs : String → TrackerFile) :
    List String → ℚ → ℕ → List String → Except AggError (ℚ × ℕ × List String)
  | [], usage, count, active => Except.ok (usage, count, active)
  | peer :: rest, usage, count, active =>
    match fs peer with
    | TrackerFile.absent => aggLoop parse now fs rest usage count active
    | TrackerFile.invalidJson => aggLoop parse now fs rest usage count active
    | TrackerFile.valid d =>
      match d.timestamp with
      | none => aggLoop parse now fs rest usage count active
      | some ts =>
        match is_updated parse now ts with
        | Except.error e => Except.error e
        | Except.ok fresh =>
          if fresh then
            match d.cpu with
            | none => Except.error AggError.cpuFieldError
            | some c =>
              aggLoop parse now fs rest (usage + c) (count + 1) (active ++ [peer])
          else
            aggLoop parse now fs rest usage count active

/-- Embedding of `get_network_cpu_mean` (src/main.py:69-126): run the peer
loop from zero accumulators, then return `usage / count` when
`aggregated_peers > 0` and the initial `-1` otherwise, together with
`active_peers`. -/
def get_network_cpu_mean (parse : String → Option ℚ) (now : ℚ)
    (fs : String → TrackerFile) (peers : List String) :
    Except AggError (ℚ × List String) :=
  match aggLoop parse now fs peers 0 0 [] with
  | Except.error e => Except.error e
  | Except.ok (usage, count, active) =>
    if count > 0 then Except.ok (usage / (count : ℚ), active)
    else Except.ok (-1, active)

/-- Reference predicate: peer `p` contributes to the mean, i.e. its tracker
file decodes, has a `timestamp` field that parses, and the reading is fresh
(`now - t < 60`). -/
def isFresh (parse : String → Option ℚ) (now : ℚ) (fs : String → TrackerFile)
    (p : String) : Bool :=
  match fs p with
  | TrackerFile.valid d =>
    match d.timestamp with
    | some ts =>
      match parse ts with
      | some t => decide (now - t < 60)
      | none => false
    | none => false
  | _ => false

/-- The cpu reading of a peer (0 for peers with no decodable reading; only
used on fresh peers, whose reading exists). -/
def peerCpu (fs : String → TrackerFile) (p : String) : ℚ :=
  match fs p with
  | TrackerFile.valid d => d.cpu.getD 0
  | _ => 0

/-- One persisted history entry `{"cpu": ..., "timestamp": ...}`. -/
structure HistEntry : Type where
  cpu : ℚ
  timestamp : String
  deriving DecidableEq, Repr

/-- State of the history output file: absent, present but failing
`json.load`/`["items"]` lookup, or well formed. -/
inductive HistFile : Type where
  | absent
  | invalid
  | valid (items : List HistEntry) (peers : List String)
  deriving DecidableEq, Repr

/-- Python's `l[-m:]` slice for a non-negative `m`: the last `m` elements,
except that `l[-0:]` is `l[0:]`, the whole list. -/
def pySliceLast {α : Type} (m : ℕ) (l : List α) : List α :=
  if m = 0 then l else l.drop (l.length - m)

/-- Embedding of `truncate_file` (src/main.py:129-176). The current UTC
timestamp string is an explicit argument. An existing-but-unloadable file
raises (uncaught) before anything is written; otherwise the new sample is
appended, the list sliced to `history[-max_items:]` when it exceeds
`max_items` (no truncation on first write), and `{"items": history,
"peers": peers}` written back, replacing the file. -/
def truncate_file (timestamp_str : String) (file : HistFile) (max_items : ℕ)
    (new_sample : ℚ) (peers : List String) : Except Unit HistFile :=
  match file with
  | HistFile.invalid => Except.error ()
  | HistFile.valid items _oldPeers =>
    let history := items ++ [⟨new_sample, timestamp_str⟩]
    let history :=
      if history.length > max_items then pySliceLast max_items history
      else history
    Except.ok (HistFile.valid history peers)
  | HistFile.absent =>
    Except.ok (HistFile.valid [⟨new_sample, timestamp_str⟩] peers)

/-- One directory entry of the datasite root, with the result of the
`Path(datasite_path / entry).is_dir()` test. -/
structure DirEntry : Type where
  name : String
  isDir : Bool
  deriving DecidableEq, Repr

/-- The datasite root as `os.listdir` sees it: either unreadable/nonexistent
(`os.listdir` raises) or a listing in the order the OS yields. -/
inductive Dir : Type where
  | inaccessible
  | listing (entries : List DirEntry)
  deriving DecidableEq, Repr

/-- The accumulation loop of `network_participants` (src/main.py:34-36). -/
def participantsLoop : List DirEntry → List String → List String
  | [], users => users
  | e :: rest, users =>
    participantsLoop rest (if e.isDir then users ++ [e.name] else users)

/-- Embedding of `network_participants` (src/main.py:10-39): `os.listdir`
raises on a missing/unreadable root (propagated uncaught), otherwise each
entry that is a directory is appended in listing order. -/
def network_participants (d : Dir) : Except Unit (List String) :=
  match d with
  | Dir.inaccessible => Except.error ()
  | Dir.listing entries => Except.ok (participantsLoop entries [])

/-- A peer whose tracker file is absent, undecodable, or lacks the
`"timestamp"` key is skipped silently by the loop. -/
def softSkip (fs : String → TrackerFile) (p : String) : Prop :=
  fs p = TrackerFile.absent ∨ fs p = TrackerFile.invalidJson ∨
    ∃ c, fs p = TrackerFile.valid (PeerData.mk none c)

/-- The last `k` elements of a list (all of it when it is shorter). -/
def lastK {α : Type} (k : ℕ) (l : List α) : List α := l.drop (l.length - k)

/-- The input of one cycle's history write: the formatted wall-clock string,
the new aggregate sample, and the cycle's active peers. -/
structure WriteInput : Type where
  now : String
  sample : ℚ
  peers : List String
  deriving DecidableEq, Repr

/-- The history entry a write persists. -/
def WriteInput.entry (w : WriteInput) : HistEntry := ⟨w.sample, w.now⟩

/-- Run a sequence of `truncate_file` cycles against the history file,
stopping at the first raised exception. -/
def runWrites (k : ℕ) : HistFile → List WriteInput → Except Unit HistFile
  | f, [] => Except.ok f
  | f, w :: ws =>
    match truncate_file w.now f k w.sample w.peers with
    | Except.error e => Except.error e
    | Except.ok f2 => runWrites k f2 ws

/-- The `peers` recorded after the last of a series of writes. -/
def finalPeers (ps0 : List String) : List WriteInput → List String
  | [] => ps0
  | w :: ws => finalPeers w.peers ws

instance instExceptDecidableEq {ε α : Type} [DecidableEq ε] [DecidableEq α] :
    DecidableEq (Except ε α)
  | Except.error a, Except.error b =>
    if h : a = b then isTrue (by rw [h])
    else isFalse (fun c => h (Except.error.inj c))
  | Except.error _, Except.ok _ => isFalse (fun c => Except.noConfusion c)
  | Except.ok _, Except.error _ => isFalse (fun c => Except.noConfusion c)
  | Except.ok a, Except.ok b =>
    if h : a = b then isTrue (by rw [h])
    else isFalse (fun c => h (Except.ok.inj c))

/-! ## Concrete test fixtures (used to instantiate the general theorems) -/

/-- A parse function for which exactly the string `"fresh"` is a well-formed
timestamp, denoting time 0. -/
def exParse : String → Option ℚ := fun s => if s = "fresh" then some 0 else none

/-- Peers A (valid, cpu = 10), B (corrupt JSON), C (valid, cpu = 20); every
other peer unpublished. -/
def exFsABC : String → TrackerFile := fun p =>
  if p = "A" then TrackerFile.valid (PeerData.mk (some "fresh") (some 10))
  else if p = "B" then TrackerFile.invalidJson
  else if p = "C" then TrackerFile.valid (PeerData.mk (some "fresh") (some 20))
  else TrackerFile.absent

/-- Every peer's file decodes but carries an unparseable timestamp. -/
def exFsBadTs : String → TrackerFile :=
  fun _ => TrackerFile.valid (PeerData.mk (some "garbage") (some 5))

/-- Every peer's file decodes with a fresh timestamp but no `cpu` field. -/
def exFsNoCpu : String → TrackerFile :=
  fun _ => TrackerFile.valid (PeerData.mk (some "fresh") none)

/-- Every peer's file decodes but lacks the `timestamp` field. -/
def exFsNoTs : String → TrackerFile :=
  fun _ => TrackerFile.valid (PeerData.mk none (some 3))

/-! ## Helper lemmas about the aggregation loop -/

/-- When the aggregation loop returns without raising, the active peers are
the input accumulator followed by exactly the fresh peers of the remaining
list (in order), the count is the accumulator plus their number, and the
usage is the accumulator plus the sum of their cpu readings. -/
theorem aggLoop_ok (parse : String → Option ℚ) (now : ℚ)
    (fs : String → TrackerFile) :
    ∀ (rest : List String) (usage : ℚ) (count : ℕ) (active : List String)
      (u : ℚ) (c : ℕ) (a : List String),
      aggLoop parse now fs rest usage count active = Except.ok (u, c, a) →
      a = active ++ rest.filter (isFresh parse now fs)
      ∧ c = count + (rest.filter (isFresh parse now fs)).length
      ∧ u = usage + ((rest.filter (isFresh parse now fs)).map (peerCpu fs)).sum := by
  intro rest
  induction rest with
  | nil =>
    intro usage count active u c a h
    simp only [aggLoop, Except.ok.injEq, Prod.mk.injEq] at h
    obtain ⟨h1, h2, h3⟩ := h
    simp [h1, h2, h3]
  | cons peer rest ih =>
    intro usage count active u c a h
    rw [aggLoop] at h
    cases hfs : fs peer with
    | absent =>
      simp only [hfs] at h
      have hfresh : isFresh parse now fs peer = false := by simp [isFresh, hfs]
      obtain ⟨h1, h2, h3⟩ := ih usage count active u c a h
      simp [List.filter_cons, hfresh, h1, h2, h3]
    | invalidJson =>
      simp only [hfs] at h
      have hfresh : isFresh parse now fs peer = false := by simp [isFresh, hfs]
      obtain ⟨h1, h2, h3⟩ := ih usage count active u c a h
      simp [List.filter_cons, hfresh, h1, h2, h3]
    | valid d =>
      simp only [hfs] at h
      cases hts : d.timestamp with
      | none =>
        simp only [hts] at h
        have hfresh : isFresh parse now fs peer = false := by
          simp [isFresh, hfs, hts]
        obtain ⟨h1, h2, h3⟩ := ih usage count active u c a h
        simp [List.filter_cons, hfresh, h1, h2, h3]
      | some ts =>
        simp only [hts] at h
        cases hpts : parse ts with
        | none =>
          simp only [is_updated, hpts] at h
          exact absurd h (by simp)
        | some t =>
          simp only [is_updated, hpts] at h
          by_cases hlt : now - t < 60
          · have hd : decide (now - t < 60) = true := by simpa using hlt
            simp only [hd, if_true] at h
            cases hcpu : d.cpu with
            | none =>
              simp only [hcpu] at h
              exact absurd h (by simp)
            | some cv =>
              simp only [hcpu] at h
              have hfresh : isFresh parse now fs peer = true := by
                simp [isFresh, hfs, hts, hpts, hlt]
              have hcv : peerCpu fs peer = cv := by simp [peerCpu, hfs, hcpu]
              obtain ⟨h1, h2, h3⟩ :=
                ih (usage + cv) (count + 1) (active ++ [peer]) u c a h
              refine ⟨?_, ?_, ?_⟩
              · simp [List.filter_cons, hfresh, h1]
              · simp [List.filter_cons, hfresh, h2]; omega
              · simp [List.filter_cons, hfresh, h3, hcv]; ring
          · have hd : decide (now - t < 60) = false := by simpa using hlt
            simp only [hd, Bool.false_eq_true, if_false] at h
            have hfresh : isFresh parse now fs peer = false := by
              simp [isFresh, hfs, hts, hpts, hlt]
            obtain ⟨h1, h2, h3⟩ := ih usage count active u c a h
            simp [List.filter_cons, hfresh, h1, h2, h3]

/-- Removing a soft-skipped peer from anywhere in the peer list leaves the
aggregation loop's outcome unchanged. -/
theorem aggLoop_skip (parse : String → Option ℚ) (now : ℚ)
    (fs : String → TrackerFile) (p : String) (hp : softSkip fs p) :
    ∀ (xs ys : List String) (usage : ℚ) (count : ℕ) (active : List String),
      aggLoop parse now fs (xs ++ p :: ys) usage count active
        = aggLoop parse now fs (xs ++ ys) usage count active := by
  intro xs
  induction xs with
  | nil =>
    intro ys usage count active
    simp only [List.nil_append]
    rw [aggLoop]
    rcases hp with h | h | ⟨cv, h⟩ <;> simp [h, PeerData.timestamp]
  | cons x xs ih =>
    intro ys usage count active
    simp only [List.cons_append, aggLoop]
    cases hfs : fs x with
    | absent => simp [ih]
    | invalidJson => simp [ih]
    | valid d =>
      cases hts : d.timestamp with
      | none => simp [hts, ih]
      | some ts =>
        cases hpts : parse ts with
        | none => simp [hts, is_updated, hpts]
        | some t =>
          by_cases hlt : now - t < 60
          · cases hcpu : d.cpu with
            | none => simp [hts, is_updated, hpts, hlt, hcpu]
            | some cv => simp [hts, is_updated, hpts, hlt, hcpu, ih]
          · simp [hts, is_updated, hpts, hlt, ih]

/-- Removing a soft-skipped peer leaves `get_network_cpu_mean` unchanged. -/
theorem gncm_skip (parse : String → Option ℚ) (now : ℚ)
    (fs : String → TrackerFile) (p : String) (hp : softSkip fs p)
    (xs ys : List String) :
    get_network_cpu_mean parse now fs (xs ++ p :: ys)
      = get_network_cpu_mean parse now fs (xs ++ ys) := by
  unfold get_network_cpu_mean
  rw [aggLoop_skip parse now fs p hp]

/-! ## Helper lemmas about the rolling history store -/

theorem lastK_length {α : Type} (k : ℕ) (l : List α) :
    (lastK k l).length = min k l.length := by
  simp [lastK]; omega

theorem lastK_of_le {α : Type} (k : ℕ) (l : List α) (h : l.length ≤ k) :
    lastK k l = l := by
  have h0 : l.length - k = 0 := by omega
  simp [lastK, h0]

/-- Taking the last `k` of the last `k` extended by one element is the last
`k` of the full list extended by that element (`k ≥ 1`). -/
theorem lastK_append_singleton {α : Type} (k : ℕ) (hk : 1 ≤ k) (l : List α)
    (e : α) : lastK k (lastK k l ++ [e]) = lastK k (l ++ [e]) := by
  by_cases h : l.length ≤ k
  · rw [lastK_of_le k l h]
  · have hlen : (lastK k l).length = k := by rw [lastK_length]; omega
    have hlen2 : (lastK k l ++ [e]).length - k = 1 := by simp [hlen]
    rw [lastK, hlen2, List.drop_append_eq_append_drop, hlen]
    have h10 : 1 - k = 0 := by omega
    rw [h10, List.drop_zero, lastK, List.drop_drop]
    rw [lastK, List.drop_append_eq_append_drop]
    have e1 : l.length - k + 1 = (l ++ [e]).length - k := by
      simp; omega
    have e2 : (l ++ [e]).length - k - l.length = 0 := by simp; omega
    rw [e1, e2, List.drop_zero]

/-- On an existing well-formed history file with capacity `k ≥ 1`,
`truncate_file` appends the new entry and keeps the last `k` entries. -/
theorem truncate_file_valid (now : String) (items : List HistEntry)
    (ps0 : List String) (k : ℕ) (hk : 1 ≤ k) (s : ℚ) (ps : List String) :
    truncate_file now (HistFile.valid items ps0) k s ps
      = Except.ok (HistFile.valid (lastK k (items ++ [⟨s, now⟩])) ps) := by
  have hk0 : ¬ (k = 0) := by omega
  rw [truncate_file]
  by_cases h : (items ++ [(⟨s, now⟩ : HistEntry)]).length > k
  · simp only [h, if_true, pySliceLast, hk0, if_false, lastK]
  · simp only [h, if_false]
    rw [lastK_of_le _ _ (by omega)]

/-- Unfolding one successful write at the head of a write sequence. -/
theorem runWrites_cons_ok (k : ℕ) (f f2 : HistFile) (w : WriteInput)
    (ws : List WriteInput)
    (h : truncate_file w.now f k w.sample w.peers = Except.ok f2) :
    runWrites k f (w :: ws) = runWrites k f2 ws := by
  rw [runWrites, h]

/-- Invariant of repeated writes (`k ≥ 1`): from a file holding the last `k`
of some virtual full entry list, further writes keep exactly the last `k` of
the extended full list, with the most recent cycle's peers. -/
theorem runWrites_valid (k : ℕ) (hk : 1 ≤ k) :
    ∀ (ws : List WriteInput) (es : List HistEntry) (ps0 : List String),
      runWrites k (HistFile.valid (lastK k es) ps0) ws
        = Except.ok
            (HistFile.valid (lastK k (es ++ ws.map WriteInput.entry))
              (finalPeers ps0 ws)) := by
  intro ws
  induction ws with
  | nil => intro es ps0; simp [runWrites, finalPeers]
  | cons w ws ih =>
    intro es ps0
    rw [runWrites_cons_ok k _ _ w ws
      (truncate_file_valid w.now (lastK k es) ps0 k hk w.sample w.peers)]
    rw [lastK_append_singleton k hk]
    rw [ih (es ++ [HistEntry.mk w.sample w.now]) w.peers]
    simp [finalPeers, WriteInput.entry, List.append_assoc]

/-- The enumerator loop appends exactly the names of directory entries, in
listing order. -/
theorem participantsLoop_eq (es : List DirEntry) :
    ∀ users, participantsLoop es users
      = users ++ (es.filter DirEntry.isDir).map DirEntry.name := by
  induction es with
  | nil => intro users; simp [participantsLoop]
  | cons e rest ih =>
    intro users
    rw [participantsLoop]
    by_cases h : e.isDir = true
    · simp [h, ih, List.filter_cons]
    · simp [h, ih, List.filter_cons]

/-! ## Claim theorems -/

/-- C9: for an existing, readable root, `network_participants` returns
exactly the names of the immediate subdirectory entries (non-directories
excluded), in listing order; for a missing or unreadable root it raises
(the `os.listdir` error propagates) instead of returning an empty list. -/
theorem network_participants_spec :
    (∀ es : List DirEntry,
      network_participants (Dir.listing es)
        = Except.ok ((es.filter DirEntry.isDir).map DirEntry.name))
    ∧ network_participants Dir.inaccessible = Except.error ()
    ∧ ∀ users, network_participants Dir.inaccessible ≠ Except.ok users := by
  refine ⟨?_, rfl, ?_⟩
  · intro es
    rw [network_participants, participantsLoop_eq]
    simp
  · intro users h
    exact Except.noConfusion h

/-- C3: for a timestamp string that parses to instant `t`, `is_updated`
reports fresh exactly when `now - t` is strictly below 60 seconds; a reading
59 seconds old is fresh, readings exactly 60 or 61 seconds old are stale,
and a future timestamp (negative difference) is fresh. -/
theorem is_updated_spec (parse : String → Option ℚ) (now t : ℚ) (ts : String)
    (h : parse ts = some t) :
    (is_updated parse now ts = Except.ok true ↔ now - t < 60)
    ∧ (now - t = 59 → is_updated parse now ts = Except.ok true)
    ∧ (now - t = 61 → is_updated parse now ts = Except.ok false)
    ∧ (now - t = 60 → is_updated parse now ts = Except.ok false)
    ∧ (now - t < 0 → is_updated parse now ts = Except.ok true) := by
  simp only [is_updated, h]
  refine ⟨by simp, ?_, ?_, ?_, ?_⟩
  · intro h2; rw [h2]; decide
  · intro h2; rw [h2]; decide
  · intro h2; rw [h2]; decide
  · intro h2
    have hlt : now - t < 60 := by linarith
    simp [hlt]

/-- Witness for C3 at a concrete input: with `parse` sending every string to
time 0 and `now = 59`, the reading is classified fresh. -/
theorem is_updated_spec_witness :
    is_updated (fun _ => some (0 : ℚ)) 59 "2024-10-05 14:00:00"
      = Except.ok true :=
  ((is_updated_spec (fun _ => some (0 : ℚ)) 59 0 "2024-10-05 14:00:00"
    rfl).1).mpr (by norm_num)

/-- C6: when the history file exists but its contents fail to load or parse,
`truncate_file` raises for that run before writing anything; there is no
execution that resets to a fresh history (no `ok` result at all). -/
theorem truncate_file_invalid_fatal (now : String) (k : ℕ) (s : ℚ)
    (ps : List String) :
    truncate_file now HistFile.invalid k s ps = Except.error ()
    ∧ ∀ f2, truncate_file now HistFile.invalid k s ps ≠ Except.ok f2 := by
  refine ⟨rfl, ?_⟩
  intro f2 h
  exact Except.noConfusion h

/-- C7: after every successful write, the persisted `peers` field equals the
`peers` argument of that run (the current `active_peers`), never merged with
whatever the file held before. -/
theorem truncate_file_peers_overwritten (now : String) (f : HistFile)
    (k : ℕ) (s : ℚ) (ps : List String) (items2 : List HistEntry)
    (ps2 : List String)
    (h : truncate_file now f k s ps = Except.ok (HistFile.valid items2 ps2)) :
    ps2 = ps := by
  cases f with
  | invalid => exact Except.noConfusion h
  | absent =>
    simp only [truncate_file, Except.ok.injEq, HistFile.valid.injEq] at h
    exact h.2.symm
  | valid items ps0 =>
    simp only [truncate_file, Except.ok.injEq, HistFile.valid.injEq] at h
    exact h.2.symm

/-- Witness for C7: a concrete write on a file previously recording peers
`["old"]` persists exactly the new run's peers `["new"]`. -/
theorem truncate_file_peers_overwritten_witness :
    (["new"] : List String) = ["new"] :=
  truncate_file_peers_overwritten "t2" 
    (HistFile.valid [HistEntry.mk 1 "t1"] ["old"]) 3 7 ["new"]
    [HistEntry.mk 1 "t1", HistEntry.mk 7 "t2"] ["new"] (by decide)

/-- C1 fails as stated: with one peer whose file decodes but whose timestamp
does not parse, zero peers have fresh parseable data, yet the aggregator
raises the `strptime` `ValueError` instead of returning `(-1, [])`. -/
theorem get_network_cpu_mean_cex :
    get_network_cpu_mean exParse 0 exFsBadTs ["a"]
      = Except.error AggError.timestampParseError
    ∧ get_network_cpu_mean exParse 0 exFsBadTs ["a"]
      ≠ Except.ok (-1, ([] : List String)) := by
  refine ⟨by decide, by decide⟩

/-- C1 (amended): whenever the aggregation returns at all (no reached peer
has an unparseable timestamp and every fresh peer carries a readable cpu),
the active peers are exactly the fresh peers in enumeration order, the mean
is the sum of their cpu readings divided by their count when that count is
positive, and it is the sentinel `-1` when zero peers are fresh (in which
case the active list is empty, being the empty filter). -/
theorem get_network_cpu_mean_spec (parse : String → Option ℚ) (now : ℚ)
    (fs : String → TrackerFile) (peers : List String) (m : ℚ)
    (active : List String)
    (h : get_network_cpu_mean parse now fs peers = Except.ok (m, active)) :
    active = peers.filter (isFresh parse now fs)
    ∧ (active = [] → m = -1)
    ∧ (active ≠ [] →
        m = ((active.map (peerCpu fs)).sum) / (active.length : ℚ)) := by
  rw [get_network_cpu_mean] at h
  cases hl : aggLoop parse now fs peers 0 0 [] with
  | error e =>
    simp only [hl] at h
    exact Except.noConfusion h
  | ok r =>
    obtain ⟨usage, count, act⟩ := r
    simp only [hl] at h
    obtain ⟨h1, h2, h3⟩ := aggLoop_ok parse now fs peers 0 0 [] usage count act hl
    simp only [List.nil_append, Nat.zero_add, zero_add] at h1 h2 h3
    by_cases hc : count > 0
    · rw [if_pos hc] at h
      have hinj := Except.ok.inj h
      have hm : usage / (count : ℚ) = m := congrArg Prod.fst hinj
      have ha : act = active := congrArg Prod.snd hinj
      subst ha
      refine ⟨h1, ?_, ?_⟩
      · intro hemp
        rw [hemp] at h1
        rw [h2, ← h1] at hc
        simp at hc
      · intro _
        rw [← hm, h3, h2, ← h1]
    · rw [if_neg hc] at h
      have hinj := Except.ok.inj h
      have hm : (-1 : ℚ) = m := congrArg Prod.fst hinj
      have ha : act = active := congrArg Prod.snd hinj
      subst ha
      have hflen : (peers.filter (isFresh parse now fs)).length = 0 := by omega
      have hfnil : peers.filter (isFresh parse now fs) = [] :=
        List.length_eq_zero.mp hflen
      refine ⟨h1, fun _ => hm.symm, ?_⟩
      intro hne
      rw [h1, hfnil] at hne
      exact absurd rfl hne

/-- Witness for C1 at a concrete input: peers A (cpu 10), B (corrupt JSON),
C (cpu 20) yield active peers [A, C] and mean 15 = (10 + 20) / 2. -/
theorem get_network_cpu_mean_spec_witness :
    (["A", "C"] : List String)
      = ["A", "B", "C"].filter (isFresh exParse 0 exFsABC)
    ∧ ((["A", "C"] : List String) = [] → (15 : ℚ) = -1)
    ∧ ((["A", "C"] : List String) ≠ [] →
        (15 : ℚ) = ((["A", "C"].map (peerCpu exFsABC)).sum)
          / ((["A", "C"] : List String).length : ℚ)) :=
  get_network_cpu_mean_spec exParse 0 exFsABC ["A", "B", "C"] 15 ["A", "C"]
    (by
      simp [get_network_cpu_mean, aggLoop, exParse, exFsABC, is_updated,
        PeerData.timestamp, PeerData.cpu]
      norm_num)

/-- C10: when the aggregator returns, the active-peer list is an
order-preserving subsequence of the input peer list, and a positive mean is
computed over exactly the cpu readings of those active peers. -/
theorem get_network_cpu_mean_subseq (parse : String → Option ℚ) (now : ℚ)
    (fs : String → TrackerFile) (peers : List String) (m : ℚ)
    (active : List String)
    (h : get_network_cpu_mean parse now fs peers = Except.ok (m, active)) :
    active.Sublist peers
    ∧ (active ≠ [] →
        m = ((active.map (peerCpu fs)).sum) / (active.length : ℚ)) := by
  rw [get_network_cpu_mean] at h
  cases hl : aggLoop parse now fs peers 0 0 [] with
  | error e =>
    simp only [hl] at h
    exact Except.noConfusion h
  | ok r =>
    obtain ⟨usage, count, act⟩ := r
    simp only [hl] at h
    obtain ⟨h1, h2, h3⟩ := aggLoop_ok parse now fs peers 0 0 [] usage count act hl
    simp only [List.nil_append, Nat.zero_add, zero_add] at h1 h2 h3
    by_cases hc : count > 0
    · rw [if_pos hc] at h
      have hinj := Except.ok.inj h
      have hm : usage / (count : ℚ) = m := congrArg Prod.fst hinj
      have ha : act = active := congrArg Prod.snd hinj
      subst ha
      refine ⟨?_, ?_⟩
      · rw [h1]; exact List.filter_sublist peers
      · intro _
        rw [← hm, h3, h2, ← h1]
    · rw [if_neg hc] at h
      have hinj := Except.ok.inj h
      have ha : act = active := congrArg Prod.snd hinj
      subst ha
      have hflen : (peers.filter (isFresh parse now fs)).length = 0 := by omega
      have hfnil : peers.filter (isFresh parse now fs) = [] :=
        List.length_eq_zero.mp hflen
      refine ⟨?_, ?_⟩
      · rw [h1]; exact List.filter_sublist peers
      · intro hne
        rw [h1, hfnil] at hne
        exact absurd rfl hne

/-- Witness for C10: with the A/B/C fixture and an extra never-published
peer Z, the returned active list [A, C] is a subsequence of the input and
the mean 15 is the mean of the active peers' readings. -/
theorem get_network_cpu_mean_subseq_witness :
    (["A", "C"] : List String).Sublist ["A", "B", "C", "Z"]
    ∧ ((["A", "C"] : List String) ≠ [] →
        (15 : ℚ) = ((["A", "C"].map (peerCpu exFsABC)).sum)
          / ((["A", "C"] : List String).length : ℚ)) :=
  get_network_cpu_mean_subseq exParse 0 exFsABC ["A", "B", "C", "Z"] 15
    ["A", "C"] (by
      simp [get_network_cpu_mean, aggLoop, exParse, exFsABC, is_updated,
        PeerData.timestamp, PeerData.cpu]
      norm_num)

/-- C2 fails as stated: a fresh peer whose decoded file lacks the `cpu`
field raises `KeyError` out of `float(peer_data["cpu"])` and aborts the
whole aggregation cycle instead of being skipped. -/
theorem aggregator_faults_cex :
    get_network_cpu_mean exParse 0 exFsNoCpu ["a", "b"]
      = Except.error AggError.cpuFieldError := by
  simp [get_network_cpu_mean, aggLoop, exParse, exFsNoCpu, is_updated,
    PeerData.timestamp, PeerData.cpu]

/-- C2 (amended): a peer whose file is missing its `timestamp` key is
silently skipped and the cycle continues, but a peer whose timestamp string
fails to parse, or a fresh peer without a readable `cpu` field, raises an
uncaught exception that aborts the aggregation cycle. -/
theorem aggregator_faults (parse : String → Option ℚ) (now : ℚ)
    (fs : String → TrackerFile) (p : String) (xs ys : List String)
    (d : PeerData) (hd : fs p = TrackerFile.valid d) :
    (d.timestamp = none →
      get_network_cpu_mean parse now fs (xs ++ p :: ys)
        = get_network_cpu_mean parse now fs (xs ++ ys))
    ∧ (∀ ts, d.timestamp = some ts → parse ts = none →
        get_network_cpu_mean parse now fs (p :: ys)
          = Except.error AggError.timestampParseError)
    ∧ (∀ ts t, d.timestamp = some ts → parse ts = some t → now - t < 60 →
        d.cpu = none →
        get_network_cpu_mean parse now fs (p :: ys)
          = Except.error AggError.cpuFieldError) := by
  refine ⟨?_, ?_, ?_⟩
  · intro hts
    apply gncm_skip
    cases d with
    | mk t c =>
      simp only [PeerData.timestamp] at hts
      subst hts
      exact Or.inr (Or.inr ⟨c, hd⟩)
  · intro ts hts hpts
    rw [get_network_cpu_mean]
    have hstep : aggLoop parse now fs (p :: ys) 0 0 []
        = Except.error AggError.timestampParseError := by
      rw [aggLoop]
      simp [hd, hts, is_updated, hpts]
    rw [hstep]
  · intro ts t hts hpts hlt hcpu
    rw [get_network_cpu_mean]
    have hstep : aggLoop parse now fs (p :: ys) 0 0 []
        = Except.error AggError.cpuFieldError := by
      rw [aggLoop]
      have hdec : decide (now - t < 60) = true := by simpa using hlt
      simp [hd, hts, is_updated, hpts, hdec, hcpu]
    rw [hstep]

/-- Witness for C2 at concrete inputs: a missing `timestamp` key skips the
peer; an unparseable timestamp aborts with the parse error; a fresh record
without `cpu` aborts with the field error. -/
theorem aggregator_faults_witness :
    (get_network_cpu_mean exParse 0 exFsNoTs (["x"] ++ "p" :: ["y"])
      = get_network_cpu_mean exParse 0 exFsNoTs (["x"] ++ ["y"]))
    ∧ (get_network_cpu_mean exParse 0 exFsBadTs ("p" :: ["y"])
      = Except.error AggError.timestampParseError)
    ∧ (get_network_cpu_mean exParse 0 exFsNoCpu ("p" :: ["y"])
      = Except.error AggError.cpuFieldError) := by
  refine ⟨?_, ?_, ?_⟩
  · exact (aggregator_faults exParse 0 exFsNoTs "p" ["x"] ["y"]
      (PeerData.mk none (some 3)) rfl).1 rfl
  · exact (aggregator_faults exParse 0 exFsBadTs "p" ["x"] ["y"]
      (PeerData.mk (some "garbage") (some 5)) rfl).2.1 "garbage" rfl
      (by decide)
  · exact (aggregator_faults exParse 0 exFsNoCpu "p" ["x"] ["y"]
      (PeerData.mk (some "fresh") none) rfl).2.2 "fresh" 0 rfl (by decide)
      (by norm_num) rfl

/-- C5: a peer whose tracker file is absent or contains undecodable JSON is
skipped without error, leaving the aggregation over the remaining peers
unchanged. -/
theorem gncm_skips_corrupt (parse : String → Option ℚ) (now : ℚ)
    (fs : String → TrackerFile) (p : String) (xs ys : List String)
    (h : fs p = TrackerFile.absent ∨ fs p = TrackerFile.invalidJson) :
    get_network_cpu_mean parse now fs (xs ++ p :: ys)
      = get_network_cpu_mean parse now fs (xs ++ ys) := by
  apply gncm_skip
  rcases h with h | h
  · exact Or.inl h
  · exact Or.inr (Or.inl h)

/-- Witness for C5: peers A (cpu 10), B (corrupt JSON), C (cpu 20): removing
B changes nothing, and the run yields mean 15 with active peers [A, C]. -/
theorem gncm_skips_corrupt_witness :
    (get_network_cpu_mean exParse 0 exFsABC (["A"] ++ "B" :: ["C"])
      = get_network_cpu_mean exParse 0 exFsABC (["A"] ++ ["C"]))
    ∧ get_network_cpu_mean exParse 0 exFsABC (["A"] ++ "B" :: ["C"])
      = Except.ok (15, ["A", "C"]) := by
  refine ⟨gncm_skips_corrupt exParse 0 exFsABC "B" ["A"] ["C"] (Or.inr rfl),
    ?_⟩
  simp [get_network_cpu_mean, aggLoop, exParse, exFsABC, is_updated,
    PeerData.timestamp, PeerData.cpu]
  norm_num

/-- C4 fails as stated at capacity `max_items = 0`: the first write on a
missing file never truncates (the `else` branch appends without slicing), so
the persisted items have length 1 > 0 = min(1, 0). (For an existing file the
slice `history[-0:]` is the whole list, so length 0 is never enforced.) -/
theorem truncate_file_capacity_cex :
    truncate_file "t" HistFile.absent 0 5 []
      = Except.ok (HistFile.valid [HistEntry.mk 5 "t"] [])
    ∧ ¬ (([HistEntry.mk 5 "t"] : List HistEntry).length ≤ 0) := by
  exact ⟨rfl, by decide⟩

/-- C4 (amended, capacity `k ≥ 1`): every successful write leaves at most
`k` items; starting from no file, N successive writes leave exactly the
min(N, k) most recently appended entries, oldest first, with the final
run's peers. -/
theorem truncate_file_capacity (k : ℕ) (hk : 1 ≤ k) :
    (∀ now f s ps items2 ps2,
      truncate_file now f k s ps = Except.ok (HistFile.valid items2 ps2) →
      items2.length ≤ k)
    ∧ (∀ w ws, runWrites k HistFile.absent (w :: ws)
        = Except.ok (HistFile.valid
            (lastK k ((w :: ws).map WriteInput.entry))
            (finalPeers w.peers ws)))
    ∧ (∀ (w : WriteInput) (ws : List WriteInput),
        (lastK k ((w :: ws).map WriteInput.entry)).length
          = min (ws.length + 1) k) := by
  refine ⟨?_, ?_, ?_⟩
  · intro now f s ps items2 ps2 h
    cases f with
    | invalid => exact Except.noConfusion h
    | absent =>
      simp only [truncate_file, Except.ok.injEq, HistFile.valid.injEq] at h
      rw [← h.1]
      simpa using hk
    | valid items ps0 =>
      rw [truncate_file_valid now items ps0 k hk s ps] at h
      simp only [Except.ok.injEq, HistFile.valid.injEq] at h
      rw [← h.1, lastK_length]
      omega
  · intro w ws
    have h1 : truncate_file w.now HistFile.absent k w.sample w.peers
        = Except.ok (HistFile.valid [HistEntry.mk w.sample w.now] w.peers) :=
      rfl
    rw [runWrites_cons_ok k _ _ w ws h1]
    have h2 : (HistFile.valid [HistEntry.mk w.sample w.now] w.peers)
        = HistFile.valid (lastK k [HistEntry.mk w.sample w.now]) w.peers := by
      rw [lastK_of_le k _ (by simp; omega)]
    rw [h2, runWrites_valid k hk ws [HistEntry.mk w.sample w.now] w.peers]
    simp [WriteInput.entry, finalPeers]
  · intro w ws
    rw [lastK_length]
    simp only [List.length_map, List.length_cons]
    omega

/-- Witness for C4: the spec's end-to-end scenario — capacity 3, samples
10, 20, 30, 40 written in sequence with peers `["x"]` — leaves exactly the
last three samples, oldest first, and peers `["x"]`. -/
theorem truncate_file_capacity_witness :
    runWrites 3 HistFile.absent
      [WriteInput.mk "t1" 10 ["x"], WriteInput.mk "t2" 20 ["x"],
        WriteInput.mk "t3" 30 ["x"], WriteInput.mk "t4" 40 ["x"]]
      = Except.ok (HistFile.valid
          [HistEntry.mk 20 "t2", HistEntry.mk 30 "t3", HistEntry.mk 40 "t4"]
          ["x"]) := by
  have h := (truncate_file_capacity 3 (by norm_num)).2.1
    (WriteInput.mk "t1" 10 ["x"])
    [WriteInput.mk "t2" 20 ["x"], WriteInput.mk "t3" 30 ["x"],
      WriteInput.mk "t4" 40 ["x"]]
  rw [h]
  decide
